import Mathlib

/-!
Verification of the ordered file inventory and eviction engine of
`filescleaner.py` (class `FileListOrdered`, class `Directory`).

Shallow embedding conventions:
* `os.stat_result` is narrowed to the two fields the program reads
  (`st_size`, `st_ctime`); sizes are `Nat`, creation times `Int`
  (only compared, never combined arithmetically).
* `FileListOrdered.total_size` is an `Int` (the program subtracts from it).
* Byte thresholds (`max_size`, `max_bytes`, `disk_bytes`) come from
  `unit2bytes`, which produces Python floats; they are embedded as `ℚ`.
  Unit-suffix parsing itself is not modelled (no claim concerns it).
* Python `dict` is embedded as an association list with unique keys:
  assignment replaces the binding in place, deletion removes it.
* Python `sorted` (a stable comparison sort on `FileStat.__lt__`, which
  compares `st_ctime`) is embedded as `List.insertionSort` on the
  `st_ctime` order; no claim depends on the relative order of ties.
* The `while` loops (`idx`, `l_idx`, the prefix-selection loop of
  `delete_files_to_max_size`) are embedded as structural recursions:
  `idx`'s loop gets an explicit iteration bound (`gas`) that is always
  sufficient at the call site, the two scans recurse on the remaining
  list.  A Python `IndexError` / `KeyError` is `none`.
* The filesystem is a function from paths to a per-file status; a file
  can be present, already absent (`os.remove` raises `ENOENT`), or
  undeletable (`os.remove` raises a non-`ENOENT` `OSError`).
-/

/-- The two fields of `os.stat_result` that the program reads. -/
structure Stat where
  st_size : Nat
  st_ctime : Int
deriving DecidableEq, Repr

/-- `class FileStat`: a path together with its stat snapshot. -/
structure FileStat where
  path : String
  stat : Stat
deriving DecidableEq, Repr

/-- `FileStat.__lt__` / `__eq__` compare `stat.st_ctime`; this is the
corresponding non-strict order used for sorting. -/
def fsLe (a b : FileStat) : Prop :=
  a.stat.st_ctime ≤ b.stat.st_ctime

instance : DecidableRel fsLe := fun a b =>
  inferInstanceAs (Decidable (a.stat.st_ctime ≤ b.stat.st_ctime))

instance : IsTotal FileStat fsLe :=
  ⟨fun a b => Int.le_total a.stat.st_ctime b.stat.st_ctime⟩

instance : IsTrans FileStat fsLe :=
  ⟨fun _ _ _ hab hbc => le_trans hab hbc⟩

/-- `self.l` is sorted ascending by creation time. -/
def SortedByCtime (l : List FileStat) : Prop :=
  List.Pairwise fsLe l

/-- Default element used for out-of-range indexing in loop embeddings
(listed accesses are all in range at call sites). -/
def dfltFS : FileStat := ⟨"", ⟨0, 0⟩⟩

/-- `sum(f.stat.st_size for f in l)`. -/
def sumSizes (l : List FileStat) : Int :=
  (l.map fun f => (f.stat.st_size : Int)).sum

/-- Python `dict` lookup `d[k]` (also `d.get`): the association list has
unique keys, so the first match is the only one. -/
def dGet (d : List (String × FileStat)) (k : String) : Option FileStat :=
  (d.find? fun kv => kv.1 == k).map Prod.snd

/-- Python `dict` assignment `d[k] = v`: replace the binding in place if
the key exists, else append a new binding. -/
def dInsert (d : List (String × FileStat)) (k : String) (v : FileStat) :
    List (String × FileStat) :=
  match d with
  | [] => [(k, v)]
  | kv :: rest =>
      if kv.1 == k then (k, v) :: rest else kv :: dInsert rest k v

/-- Python `del d[k]` (callers have already checked the key exists). -/
def dDelete (d : List (String × FileStat)) (k : String) :
    List (String × FileStat) :=
  d.eraseP fun kv => kv.1 == k

/-- `class FileListOrdered`: path map `d`, creation-time-ordered list
`l`, running byte total `total_size`. -/
structure FileListOrdered where
  d : List (String × FileStat)
  l : List FileStat
  total_size : Int
deriving DecidableEq, Repr

/-- `FileListOrdered.__init__(file_stats)`:
`self.d = {f.path: f for f in file_stats}` (later bindings win),
`self.l = sorted(file_stats)` (by `st_ctime`),
`self.total_size = sum(f.stat.st_size for f in self.l)`. -/
def FileListOrdered.build (file_stats : List FileStat) : FileListOrdered :=
  let l := file_stats.insertionSort fsLe
  { d := file_stats.foldl (fun acc f => dInsert acc f.path f) []
    l := l
    total_size := sumSizes l }

-- ### Dictionary lemmas

theorem dGet_cons (kv : String × FileStat) (d : List (String × FileStat))
    (p : String) :
    dGet (kv :: d) p = if kv.1 = p then some kv.2 else dGet d p := by
  by_cases h : kv.1 = p
  · simp [dGet, List.find?_cons, h]
  · have hb : (kv.1 == p) = false := beq_eq_false_iff_ne.mpr h
    simp [dGet, List.find?_cons, hb, h]

theorem dGet_dInsert (d : List (String × FileStat)) (k : String)
    (v : FileStat) (p : String) :
    dGet (dInsert d k v) p = if p = k then some v else dGet d p := by
  induction d with
  | nil =>
      by_cases h : p = k
      · simp [dInsert, dGet_cons, h]
      · have h2 : ¬k = p := fun hh => h hh.symm
        simp [dInsert, dGet_cons, h2, h, dGet]
  | cons kv rest ih =>
      by_cases hk : kv.1 = k
      · have hb : (kv.1 == k) = true := beq_iff_eq.mpr hk
        by_cases h : p = k
        · simp [dInsert, hb, dGet_cons, h]
        · have : ¬k = p := fun hh => h hh.symm
          simp [dInsert, hb, dGet_cons, h, this, hk]
      · have hb : (kv.1 == k) = false := beq_eq_false_iff_ne.mpr hk
        by_cases hp : kv.1 = p
        · have hpk : ¬p = k := fun hh => hk (hp.trans hh)
          simp [dInsert, hb, dGet_cons, hp, hpk]
        · simp [dInsert, hb, dGet_cons, hp, ih]

theorem dInsert_of_not_mem (d : List (String × FileStat)) (k : String)
    (v : FileStat) (hk : k ∉ d.map Prod.fst) :
    dInsert d k v = d ++ [(k, v)] := by
  induction d with
  | nil => rfl
  | cons kv rest ih =>
      have h1 : ¬kv.1 = k := by
        intro h; exact hk (by simp [h])
      have hb : (kv.1 == k) = false := beq_eq_false_iff_ne.mpr h1
      have h2 : k ∉ rest.map Prod.fst := by
        intro h; exact hk (by simp [h])
      simp [dInsert, hb, ih h2]

theorem dGet_eq_none_iff (d : List (String × FileStat)) (k : String) :
    dGet d k = none ↔ k ∉ d.map Prod.fst := by
  induction d with
  | nil => simp [dGet]
  | cons kv rest ih =>
      rw [dGet_cons]
      by_cases h : kv.1 = k
      · subst h
        simp
      · have h2 : ¬k = kv.1 := fun hh => h hh.symm
        rw [if_neg h, ih]
        simp [h2]

/-- Decomposition of a dictionary around a present key: the pieces
before and after, and what `dInsert`/`dDelete` do to them. -/
theorem dGet_some_decomp (d : List (String × FileStat)) (k : String)
    (v : FileStat) (hnd : (d.map Prod.fst).Nodup) (h : dGet d k = some v) :
    ∃ d₁ d₂, d = d₁ ++ (k, v) :: d₂ ∧
      k ∉ d₁.map Prod.fst ∧ k ∉ d₂.map Prod.fst ∧
      (∀ w, dInsert d k w = d₁ ++ (k, w) :: d₂) ∧
      dDelete d k = d₁ ++ d₂ := by
  induction d with
  | nil => simp [dGet] at h
  | cons kv rest ih =>
      have hnd2 : (kv.1 :: rest.map Prod.fst).Nodup := by
        simpa only [List.map_cons] using hnd
      obtain ⟨hhd, htl⟩ := List.nodup_cons.mp hnd2
      by_cases hk : kv.1 = k
      · have hb : (kv.1 == k) = true := beq_iff_eq.mpr hk
        have hv : kv.2 = v := by
          rw [dGet_cons] at h
          simpa [hk] using h
        have hk2 : k ∉ rest.map Prod.fst := by rw [← hk]; exact hhd
        refine ⟨[], rest, ?_, by simp, hk2, ?_, ?_⟩
        · simp [← hk, ← hv]
        · intro w; simp [dInsert, hb]
        · simp [dDelete, List.eraseP_cons, hb]
      · have hb : (kv.1 == k) = false := beq_eq_false_iff_ne.mpr hk
        have h' : dGet rest k = some v := by
          rw [dGet_cons] at h
          simpa [hk] using h
        obtain ⟨d₁, d₂, hdec, h1, h2, hins, hdel⟩ := ih htl h'
        refine ⟨kv :: d₁, d₂, by simp [hdec], ?_, h2, ?_, ?_⟩
        · simp only [List.map_cons, List.mem_cons]
          rintro (h | h)
          · exact hk h.symm
          · exact h1 h
        · intro w; simp [dInsert, hb, hins w]
        · simp only [dDelete, List.eraseP_cons, hb, cond_false, List.cons_append]
          exact congrArg (kv :: ·) hdel

theorem dInsert_map_fst (d : List (String × FileStat)) (k : String)
    (v : FileStat) :
    (dInsert d k v).map Prod.fst =
      if k ∈ d.map Prod.fst then d.map Prod.fst
      else d.map Prod.fst ++ [k] := by
  induction d with
  | nil => simp [dInsert]
  | cons kv rest ih =>
      by_cases h : kv.1 = k
      · have hb : (kv.1 == k) = true := beq_iff_eq.mpr h
        simp [dInsert, hb, h]
      · have hb : (kv.1 == k) = false := beq_eq_false_iff_ne.mpr h
        have h2 : ¬k = kv.1 := fun hh => h hh.symm
        by_cases hm : k ∈ rest.map Prod.fst
        · simp [dInsert, hb, ih, hm, h2]
        · simp [dInsert, hb, ih, hm, h2]

theorem dInsert_keys_nodup (d : List (String × FileStat)) (k : String)
    (v : FileStat) (hnd : (d.map Prod.fst).Nodup) :
    ((dInsert d k v).map Prod.fst).Nodup := by
  rw [dInsert_map_fst]
  by_cases hm : k ∈ d.map Prod.fst
  · simpa [hm] using hnd
  · simp only [hm, if_false]
    refine List.Nodup.append hnd (List.nodup_singleton k) ?_
    intro a ha hak
    rw [List.mem_singleton] at hak
    subst hak
    exact hm ha

/-- The dict comprehension `{f.path: f for f in file_stats}` folded over
an accumulator: a lookup sees the latest binding for the path, i.e. the
last matching record of the input (scanned from the right). -/
theorem dGet_foldl_build (fs : List FileStat)
    (acc : List (String × FileStat)) (p : String) :
    dGet (fs.foldl (fun a f => dInsert a f.path f) acc) p =
      (fs.reverse.find? fun f => f.path == p).or (dGet acc p) := by
  induction fs generalizing acc with
  | nil => simp
  | cons f rest ih =>
      rw [List.foldl_cons, ih, List.reverse_cons, List.find?_append]
      by_cases h : f.path = p
      · subst h
        rw [dGet_dInsert, if_pos rfl]
        cases hr : (rest.reverse.find? fun g => g.path == f.path) with
        | none => simp [hr, List.find?, Option.or]
        | some g => simp [hr, Option.or]
      · have hb : (f.path == p) = false := beq_eq_false_iff_ne.mpr h
        have h2 : ¬p = f.path := fun hh => h hh.symm
        rw [dGet_dInsert, if_neg h2]
        cases hr : (rest.reverse.find? fun g => g.path == p) with
        | none => simp [hr, List.find?, hb, Option.or]
        | some g => simp [hr, List.find?, hb, Option.or]

theorem build_keys_nodup (fs : List FileStat)
    (acc : List (String × FileStat)) (hnd : (acc.map Prod.fst).Nodup) :
    ((fs.foldl (fun a f => dInsert a f.path f) acc).map Prod.fst).Nodup := by
  induction fs generalizing acc with
  | nil => simpa
  | cons f rest ih =>
      exact ih (dInsert acc f.path f) (dInsert_keys_nodup acc f.path f hnd)

theorem sumSizes_of_perm {l₁ l₂ : List FileStat} (h : l₁.Perm l₂) :
    sumSizes l₁ = sumSizes l₂ :=
  List.Perm.sum_eq (List.Perm.map _ h)

/-- Claim C10: building an inventory from records with duplicate paths
keeps every record (duplicates included) in the ordered sequence,
`totalSize` sums all of their sizes, and the path map keeps exactly one
record per path — the last one in input order. -/
theorem build_duplicate_paths_spec (fs : List FileStat) :
    (FileListOrdered.build fs).l.Perm fs ∧
    (FileListOrdered.build fs).total_size = sumSizes fs ∧
    (((FileListOrdered.build fs).d.map Prod.fst).Nodup) ∧
    ∀ p, dGet (FileListOrdered.build fs).d p =
      fs.reverse.find? fun f => f.path == p := by
  refine ⟨List.perm_insertionSort fsLe fs, ?_, ?_, ?_⟩
  · exact sumSizes_of_perm (List.perm_insertionSort fsLe fs)
  · exact build_keys_nodup fs [] (by simp)
  · intro p
    rw [FileListOrdered.build]
    show dGet (fs.foldl (fun a f => dInsert a f.path f) []) p = _
    rw [dGet_foldl_build]
    simp [dGet]

-- ### `idx` (binary search), `l_idx` (scan), `__setitem__`, `__delitem__`

/-- The `while lo < hi` loop of `FileListOrdered.idx`: binary search for
the leftmost position whose element is not `< x` by `st_ctime`.  The
loop is embedded with an explicit iteration bound `gas`; each iteration
shrinks `hi - lo`, and the call site passes `gas = len(l) ≥ hi - lo`,
so the bound never cuts the loop short. -/
def idxGo (l : List FileStat) (x : FileStat) : Nat → Nat → Nat → Nat
  | 0, lo, _ => lo
  | gas + 1, lo, hi =>
      if lo < hi then
        if (l.getD ((lo + hi) / 2) dfltFS).stat.st_ctime <
            x.stat.st_ctime then
          idxGo l x gas ((lo + hi) / 2 + 1) hi
        else
          idxGo l x gas lo ((lo + hi) / 2)
      else lo

/-- `FileListOrdered.idx(x)` with `lo, hi = 0, len(self.l)`.  The list
is passed explicitly because `__setitem__` re-runs the search after
mutating `self.l`. -/
def FileListOrdered.idx (l : List FileStat) (x : FileStat) : Nat :=
  idxGo l x l.length 0 l.length

/-- The `while idx < len(self.l)` scan of `FileListOrdered.l_idx`,
recursing on the unvisited suffix; `some i` is the absolute index of
the first path match at or after the start, `none` is the `KeyError`. -/
def lIdxLoop : List FileStat → String → Nat → Option Nat
  | [], _, _ => none
  | st :: rest, p, i =>
      if st.path = p then some i else lIdxLoop rest p (i + 1)

/-- `FileListOrdered.l_idx(x)`: binary-search to the sort position of
`x`, then scan forward for the first element with `x`'s path. -/
def FileListOrdered.l_idx (l : List FileStat) (x : FileStat) : Option Nat :=
  lIdxLoop (l.drop (FileListOrdered.idx l x)) x.path (FileListOrdered.idx l x)

/-- `FileListOrdered.__setitem__(k, v)`: if the key exists and the
creation time changed, first delete the old record from `self.l` (via
`l_idx`, a `KeyError` there is `none`); then binary-search-insert `v`
into `self.l` and assign `self.d[k] = v`.  `self.total_size` is not
touched. -/
def FileListOrdered.setitem (s : FileListOrdered) (k : String)
    (v : FileStat) : Option FileListOrdered :=
  match dGet s.d k with
  | some old_v =>
      if old_v.stat.st_ctime ≠ v.stat.st_ctime then
        match FileListOrdered.l_idx s.l old_v with
        | none => none
        | some old_idx =>
            let l1 := s.l.eraseIdx old_idx
            some { d := dInsert s.d k v
                   l := l1.insertIdx (FileListOrdered.idx l1 v) v
                   total_size := s.total_size }
      else
        some { d := dInsert s.d k v
               l := s.l.insertIdx (FileListOrdered.idx s.l v) v
               total_size := s.total_size }
  | none =>
      some { d := dInsert s.d k v
             l := s.l.insertIdx (FileListOrdered.idx s.l v) v
             total_size := s.total_size }

/-- `FileListOrdered.__delitem__(k)`: look the record up in `self.d`
(`KeyError` if absent), locate it in `self.l` via `l_idx`, remove it
from both.  `self.total_size` is not touched. -/
def FileListOrdered.delitem (s : FileListOrdered) (k : String) :
    Option FileListOrdered :=
  match dGet s.d k with
  | none => none
  | some v =>
      match FileListOrdered.l_idx s.l v with
      | none => none
      | some i =>
          some { d := dDelete s.d k
                 l := s.l.eraseIdx i
                 total_size := s.total_size }

-- ### Sorted-list and search lemmas

theorem sorted_ctime_le (l : List FileStat) (hs : SortedByCtime l)
    {i j : Nat} (hi : i < l.length) (hj : j < l.length) (hij : i ≤ j) :
    (l[i]).stat.st_ctime ≤ (l[j]).stat.st_ctime := by
  rcases lt_or_eq_of_le hij with h | h
  · exact List.pairwise_iff_getElem.mp hs i j hi hj h
  · subst h; rfl

theorem idxGo_spec (l : List FileStat) (x : FileStat)
    (hs : SortedByCtime l) :
    ∀ gas lo hi, hi - lo ≤ gas → lo ≤ hi → hi ≤ l.length →
    (∀ j, (hj : j < l.length) → j < lo →
      (l[j]).stat.st_ctime < x.stat.st_ctime) →
    (∀ j, (hj : j < l.length) → hi ≤ j →
      x.stat.st_ctime ≤ (l[j]).stat.st_ctime) →
    lo ≤ idxGo l x gas lo hi ∧ idxGo l x gas lo hi ≤ hi ∧
    (∀ j, (hj : j < l.length) → j < idxGo l x gas lo hi →
      (l[j]).stat.st_ctime < x.stat.st_ctime) ∧
    (∀ j, (hj : j < l.length) → idxGo l x gas lo hi ≤ j →
      x.stat.st_ctime ≤ (l[j]).stat.st_ctime) := by
  intro gas
  induction gas with
  | zero =>
      intro lo hi hgas hlh _ hbelow habove
      have : lo = hi := by omega
      subst this
      exact ⟨le_refl _, le_refl _, hbelow, habove⟩
  | succ gas ih =>
      intro lo hi hgas hlh hhi hbelow habove
      rw [idxGo]
      by_cases hlt : lo < hi
      · rw [if_pos hlt]
        have hmid1 : lo ≤ (lo + hi) / 2 := by omega
        have hmid2 : (lo + hi) / 2 < hi := by omega
        have hmidlen : (lo + hi) / 2 < l.length := lt_of_lt_of_le hmid2 hhi
        rw [List.getD_eq_getElem l dfltFS hmidlen]
        by_cases hcmp :
            (l[(lo + hi) / 2]).stat.st_ctime < x.stat.st_ctime
        · rw [if_pos hcmp]
          have hnew : ∀ j, (hj : j < l.length) → j < (lo + hi) / 2 + 1 →
              (l[j]).stat.st_ctime < x.stat.st_ctime := by
            intro j hj hjm
            have hj2 : j ≤ (lo + hi) / 2 := by omega
            exact lt_of_le_of_lt (sorted_ctime_le l hs hj hmidlen hj2) hcmp
          obtain ⟨h1, h2, h3, h4⟩ :=
            ih ((lo + hi) / 2 + 1) hi (by omega) (by omega) hhi hnew habove
          exact ⟨le_trans (by omega) h1, h2, h3, h4⟩
        · rw [if_neg hcmp]
          have hnew : ∀ j, (hj : j < l.length) → (lo + hi) / 2 ≤ j →
              x.stat.st_ctime ≤ (l[j]).stat.st_ctime := by
            intro j hj hjm
            exact le_trans (not_lt.mp hcmp) (sorted_ctime_le l hs hmidlen hj hjm)
          obtain ⟨h1, h2, h3, h4⟩ :=
            ih lo ((lo + hi) / 2) (by omega) (by omega)
              (le_of_lt hmidlen) hbelow hnew
          exact ⟨h1, le_trans h2 (le_of_lt hmid2), h3, h4⟩
      · rw [if_neg hlt]
        have : lo = hi := by omega
        subst this
        exact ⟨le_refl _, le_refl _, hbelow, habove⟩

theorem idx_spec (l : List FileStat) (x : FileStat) (hs : SortedByCtime l) :
    FileListOrdered.idx l x ≤ l.length ∧
    (∀ j, (hj : j < l.length) → j < FileListOrdered.idx l x →
      (l[j]).stat.st_ctime < x.stat.st_ctime) ∧
    (∀ j, (hj : j < l.length) → FileListOrdered.idx l x ≤ j →
      x.stat.st_ctime ≤ (l[j]).stat.st_ctime) := by
  obtain ⟨_, h2, h3, h4⟩ :=
    idxGo_spec l x hs l.length 0 l.length (by omega) (by omega)
      (le_refl _) (by omega) (fun j hj hle => absurd hj (by omega))
  exact ⟨h2, h3, h4⟩

theorem insertIdx_eq_take_drop {α : Type} :
    ∀ (n : Nat) (l : List α) (a : α), n ≤ l.length →
      l.insertIdx n a = l.take n ++ a :: l.drop n := by
  intro n
  induction n with
  | zero => intro l a _; simp
  | succ n ih =>
      intro l a hn
      cases l with
      | nil => simp at hn
      | cons b rest =>
          rw [List.insertIdx_succ_cons, ih rest a (by simpa using hn)]
          simp

theorem eraseIdx_eq_take_drop {α : Type} :
    ∀ (n : Nat) (l : List α),
      l.eraseIdx n = l.take n ++ l.drop (n + 1) := by
  intro n
  induction n with
  | zero =>
      intro l
      cases l <;> simp [List.eraseIdx]
  | succ n ih =>
      intro l
      cases l with
      | nil => simp [List.eraseIdx]
      | cons b rest => simp [List.eraseIdx, ih rest]

theorem insertIdx_perm {α : Type} (n : Nat) (l : List α) (a : α)
    (hn : n ≤ l.length) : (l.insertIdx n a).Perm (a :: l) := by
  rw [insertIdx_eq_take_drop n l a hn]
  calc (l.take n ++ a :: l.drop n).Perm (a :: (l.take n ++ l.drop n)) :=
        List.perm_middle
    _ = (a :: l) := by rw [List.take_append_drop]

theorem eraseIdx_cons_perm {α : Type} (n : Nat) (l : List α)
    (hn : n < l.length) : (l[n] :: l.eraseIdx n).Perm l := by
  rw [eraseIdx_eq_take_drop n l]
  have hdec : l.take n ++ l[n] :: l.drop (n + 1) = l := by
    conv_rhs => rw [← List.take_append_drop n l]
    rw [List.drop_eq_getElem_cons hn]
  calc (l[n] :: (l.take n ++ l.drop (n + 1))).Perm
        (l.take n ++ l[n] :: l.drop (n + 1)) := List.perm_middle.symm
    _ = l := hdec

theorem sorted_eraseIdx (l : List FileStat) (n : Nat)
    (hs : SortedByCtime l) : SortedByCtime (l.eraseIdx n) :=
  List.Pairwise.sublist (List.eraseIdx_sublist l n) hs

/-- Inserting at the binary-search position keeps `self.l` sorted. -/
theorem sorted_insertIdx_idx (l : List FileStat) (x : FileStat)
    (hs : SortedByCtime l) :
    SortedByCtime (l.insertIdx (FileListOrdered.idx l x) x) := by
  obtain ⟨hlen, hbelow, habove⟩ := idx_spec l x hs
  rw [insertIdx_eq_take_drop _ l x hlen]
  have htake : ∀ a ∈ l.take (FileListOrdered.idx l x),
      a.stat.st_ctime < x.stat.st_ctime := by
    intro a ha
    obtain ⟨i, hi, hget⟩ := List.mem_iff_getElem.mp ha
    have hi2 : i < l.length := by
      have := hi; rw [List.length_take] at this; omega
    have hix : i < FileListOrdered.idx l x := by
      have := hi; rw [List.length_take] at this; omega
    rw [List.getElem_take] at hget
    rw [← hget]
    exact hbelow i hi2 hix
  have hdrop : ∀ b ∈ l.drop (FileListOrdered.idx l x),
      x.stat.st_ctime ≤ b.stat.st_ctime := by
    intro b hb
    obtain ⟨j, hj, hget⟩ := List.mem_iff_getElem.mp hb
    have hj2 : FileListOrdered.idx l x + j < l.length := by
      have := hj; rw [List.length_drop] at this; omega
    rw [List.getElem_drop] at hget
    rw [← hget]
    exact habove _ hj2 (by omega)
  rw [SortedByCtime, List.pairwise_append]
  refine ⟨List.Pairwise.sublist (List.take_sublist _ _) hs, ?_, ?_⟩
  · rw [List.pairwise_cons]
    exact ⟨fun b hb => hdrop b hb,
      List.Pairwise.sublist (List.drop_sublist _ _) hs⟩
  · intro a ha b hb
    rcases List.mem_cons.mp hb with hbx | hbd
    · subst hbx
      exact le_of_lt (htake a ha)
    · exact le_trans (le_of_lt (htake a ha)) (hdrop b hbd)

/-- Inserting at the binary-search position is, up to permutation,
consing the new record on. -/
theorem insertIdx_idx_perm (l : List FileStat) (x : FileStat)
    (hs : SortedByCtime l) :
    (l.insertIdx (FileListOrdered.idx l x) x).Perm (x :: l) :=
  insertIdx_perm _ l x (idx_spec l x hs).1

theorem lIdxLoop_finds :
    ∀ (rest : List FileStat) (p : String) (base j : Nat)
      (hj : j < rest.length), (rest[j]).path = p →
      (∀ i, (hi : i < rest.length) → i < j → (rest[i]).path ≠ p) →
      lIdxLoop rest p base = some (base + j) := by
  intro rest
  induction rest with
  | nil => intro p base j hj; simp at hj
  | cons st r ih =>
      intro p base j hj hpath hfirst
      cases j with
      | zero =>
          simp only [List.getElem_cons_zero] at hpath
          simp [lIdxLoop, hpath]
      | succ j =>
          have hne : st.path ≠ p := by
            have := hfirst 0 (by simp) (by omega)
            simpa using this
          rw [lIdxLoop, if_neg hne]
          have hj' : j < r.length := by simpa using hj
          have hpath' : (r[j]).path = p := by
            simpa using hpath
          have hfirst' : ∀ i, (hi : i < r.length) → i < j →
              (r[i]).path ≠ p := by
            intro i hi hij
            have := hfirst (i + 1) (by simpa using hi) (by omega)
            simpa using this
          rw [ih p (base + 1) j hj' hpath' hfirst']
          congr 1
          omega

/-- On a sorted list with no duplicate paths, `l_idx` finds exactly the
position of the looked-up element. -/
theorem l_idx_finds (l : List FileStat) (x : FileStat)
    (hs : SortedByCtime l) (hnd : (l.map FileStat.path).Nodup)
    (p : Nat) (hp : p < l.length) (hx : l[p] = x) :
    FileListOrdered.l_idx l x = some p := by
  obtain ⟨hlen, hbelow, habove⟩ := idx_spec l x hs
  have hge : FileListOrdered.idx l x ≤ p := by
    by_contra hlt
    have := hbelow p hp (by omega)
    rw [hx] at this
    exact absurd this (lt_irrefl _)
  rw [FileListOrdered.l_idx]
  have hlen2 : p - FileListOrdered.idx l x <
      (l.drop (FileListOrdered.idx l x)).length := by
    rw [List.length_drop]; omega
  have hget : ((l.drop (FileListOrdered.idx l x))[p -
      FileListOrdered.idx l x]).path = x.path := by
    rw [List.getElem_drop]
    have : FileListOrdered.idx l x + (p - FileListOrdered.idx l x) = p := by
      omega
    simp only [this]
    rw [hx]
  have hfirst : ∀ i, (hi : i < (l.drop (FileListOrdered.idx l x)).length) →
      i < p - FileListOrdered.idx l x →
      ((l.drop (FileListOrdered.idx l x))[i]).path ≠ x.path := by
    intro i hi hip
    rw [List.getElem_drop]
    have hlt : FileListOrdered.idx l x + i < l.length := by
      rw [List.length_drop] at hi; omega
    intro hcontra
    have hne : FileListOrdered.idx l x + i ≠ p := by omega
    have hlt2 : FileListOrdered.idx l x + i < (l.map FileStat.path).length := by
      rw [List.length_map]; exact hlt
    have hp2 : p < (l.map FileStat.path).length := by
      rw [List.length_map]; exact hp
    have : (l.map FileStat.path)[FileListOrdered.idx l x + i] =
        (l.map FileStat.path)[p] := by
      rw [List.getElem_map, List.getElem_map, hx, hcontra]
    exact hne (List.Nodup.getElem_inj_iff hnd |>.mp this)
  rw [lIdxLoop_finds (l.drop (FileListOrdered.idx l x)) x.path
    (FileListOrdered.idx l x) (p - FileListOrdered.idx l x) hlen2 hget hfirst]
  congr 1
  omega

-- ### The structural invariant and the mutation operations

/-- The structural invariant of `FileListOrdered`: `self.l` is sorted by
creation time, is (as a multiset) exactly the values of `self.d`, the
keys of `self.d` are unique, and every record is filed under its own
path. -/
def FLInv (s : FileListOrdered) : Prop :=
  SortedByCtime s.l ∧
  s.l.Perm (s.d.map Prod.snd) ∧
  (s.d.map Prod.fst).Nodup ∧
  ∀ kv ∈ s.d, kv.2.path = kv.1

theorem FLInv.paths_nodup {s : FileListOrdered} (h : FLInv s) :
    (s.l.map FileStat.path).Nodup := by
  obtain ⟨_, hperm, hkeys, hpaths⟩ := h
  have hmap : (s.d.map Prod.snd).map FileStat.path = s.d.map Prod.fst := by
    rw [List.map_map]
    exact List.map_congr_left hpaths
  have : (s.l.map FileStat.path).Perm (s.d.map Prod.fst) := by
    rw [← hmap]
    exact hperm.map FileStat.path
  exact (this.nodup_iff).mpr hkeys

theorem setitem_inv (s s' : FileListOrdered) (v : FileStat)
    (hinv : FLInv s)
    (hct : ∀ old, dGet s.d v.path = some old →
      old.stat.st_ctime ≠ v.stat.st_ctime)
    (hstep : s.setitem v.path v = some s') :
    FLInv s' ∧ s'.total_size = s.total_size := by
  obtain ⟨hsort, hperm, hkeys, hpaths⟩ := hinv
  cases hget : dGet s.d v.path with
  | none =>
      rw [FileListOrdered.setitem, hget] at hstep
      obtain rfl := Option.some_injective _ hstep
      have hnotmem : v.path ∉ s.d.map Prod.fst :=
        (dGet_eq_none_iff s.d v.path).mp hget
      have hdins : dInsert s.d v.path v = s.d ++ [(v.path, v)] :=
        dInsert_of_not_mem s.d v.path v hnotmem
      refine ⟨⟨sorted_insertIdx_idx s.l v hsort, ?_, ?_, ?_⟩, rfl⟩
      · rw [hdins, List.map_append]
        exact (insertIdx_idx_perm s.l v hsort).trans
          ((hperm.cons v).trans (List.perm_append_singleton v _).symm)
      · exact dInsert_keys_nodup s.d v.path v hkeys
      · rw [hdins]
        intro kv hkv
        rcases List.mem_append.mp hkv with h | h
        · exact hpaths kv h
        · rw [List.mem_singleton] at h
          subst h
          rfl
  | some old =>
      have hne : old.stat.st_ctime ≠ v.stat.st_ctime := hct old hget
      obtain ⟨d₁, d₂, hdec, hk1, hk2, hins, _⟩ :=
        dGet_some_decomp s.d v.path old hkeys hget
      have hold_mem : old ∈ s.l := by
        refine hperm.mem_iff.mpr ?_
        rw [hdec, List.map_append]
        simp
      obtain ⟨p, hp, hgetp⟩ := List.mem_iff_getElem.mp hold_mem
      have hlidx : FileListOrdered.l_idx s.l old = some p :=
        l_idx_finds s.l old hsort (FLInv.paths_nodup ⟨hsort, hperm, hkeys, hpaths⟩)
          p hp hgetp
      simp only [FileListOrdered.setitem, hget, hlidx, ne_eq, hne,
        not_false_eq_true, if_true] at hstep
      obtain rfl := (Option.some_injective _ hstep).symm
      have hsort1 : SortedByCtime (s.l.eraseIdx p) := sorted_eraseIdx s.l p hsort
      have hperm1 : (s.l.eraseIdx p).Perm (d₁.map Prod.snd ++ d₂.map Prod.snd) := by
        have h1 : (old :: s.l.eraseIdx p).Perm s.l := by
          have := eraseIdx_cons_perm p s.l hp
          rwa [hgetp] at this
        have h2 : s.l.Perm (old :: (d₁.map Prod.snd ++ d₂.map Prod.snd)) := by
          refine hperm.trans ?_
          rw [hdec, List.map_append, List.map_cons]
          exact List.perm_middle
        exact (h1.trans h2).cons_inv
      refine ⟨⟨sorted_insertIdx_idx _ v hsort1, ?_, ?_, ?_⟩, rfl⟩
      · rw [hins v, List.map_append, List.map_cons]
        exact (insertIdx_idx_perm _ v hsort1).trans
          ((hperm1.cons v).trans List.perm_middle.symm)
      · have : (dInsert s.d v.path v).map Prod.fst = s.d.map Prod.fst := by
          rw [hins v, hdec]
          simp
        rw [this]
        exact hkeys
      · rw [hins v]
        intro kv hkv
        rcases List.mem_append.mp hkv with h | h
        · exact hpaths kv (by rw [hdec]; exact List.mem_append.mpr (Or.inl h))
        · rcases List.mem_cons.mp h with h2 | h2
          · subst h2
            rfl
          · exact hpaths kv
              (by rw [hdec]
                  exact List.mem_append.mpr (Or.inr (List.mem_cons_of_mem _ h2)))

theorem delitem_inv (s s' : FileListOrdered) (k : String)
    (hinv : FLInv s) (hstep : s.delitem k = some s') :
    FLInv s' ∧ s'.total_size = s.total_size := by
  obtain ⟨hsort, hperm, hkeys, hpaths⟩ := hinv
  cases hget : dGet s.d k with
  | none => rw [FileListOrdered.delitem, hget] at hstep; exact absurd hstep (by simp)
  | some v =>
      obtain ⟨d₁, d₂, hdec, hk1, hk2, _, hdel⟩ :=
        dGet_some_decomp s.d k v hkeys hget
      have hv_mem : v ∈ s.l := by
        refine hperm.mem_iff.mpr ?_
        rw [hdec, List.map_append]
        simp
      obtain ⟨p, hp, hgetp⟩ := List.mem_iff_getElem.mp hv_mem
      have hlidx : FileListOrdered.l_idx s.l v = some p :=
        l_idx_finds s.l v hsort (FLInv.paths_nodup ⟨hsort, hperm, hkeys, hpaths⟩)
          p hp hgetp
      simp only [FileListOrdered.delitem, hget, hlidx] at hstep
      obtain rfl := (Option.some_injective _ hstep).symm
      refine ⟨⟨sorted_eraseIdx s.l p hsort, ?_, ?_, ?_⟩, rfl⟩
      · have h1 : (v :: s.l.eraseIdx p).Perm s.l := by
          have := eraseIdx_cons_perm p s.l hp
          rwa [hgetp] at this
        have h2 : s.l.Perm (v :: (d₁.map Prod.snd ++ d₂.map Prod.snd)) := by
          refine hperm.trans ?_
          rw [hdec, List.map_append, List.map_cons]
          exact List.perm_middle
        rw [hdel, List.map_append]
        exact (h1.trans h2).cons_inv
      · have hfst : s.d.map Prod.fst =
            d₁.map Prod.fst ++ k :: d₂.map Prod.fst := by
          rw [hdec]
          simp
        rw [hfst] at hkeys
        rw [hdel, List.map_append]
        refine List.Nodup.sublist ?_ hkeys
        exact List.Sublist.append_left (List.sublist_cons_self k _) _
      · intro kv hkv
        refine hpaths kv ?_
        rw [hdec]
        rcases List.mem_append.mp (hdel ▸ hkv) with h | h
        · exact List.mem_append.mpr (Or.inl h)
        · exact List.mem_append.mpr (Or.inr (List.mem_cons_of_mem _ h))

theorem build_d_of_nodup :
    ∀ (fs : List FileStat) (acc : List (String × FileStat)),
    (fs.map FileStat.path).Nodup →
    (∀ f ∈ fs, f.path ∉ acc.map Prod.fst) →
    fs.foldl (fun a f => dInsert a f.path f) acc =
      acc ++ fs.map fun f => (f.path, f) := by
  intro fs
  induction fs with
  | nil => intro acc _ _; simp
  | cons f rest ih =>
      intro acc hnd hdisj
      have hnd2 : (f.path :: rest.map FileStat.path).Nodup := by
        simpa only [List.map_cons] using hnd
      obtain ⟨hhd, htl⟩ := List.nodup_cons.mp hnd2
      rw [List.foldl_cons,
        dInsert_of_not_mem acc f.path f (hdisj f (by simp)),
        ih (acc ++ [(f.path, f)]) htl ?_]
      · simp
      · intro g hg
        rw [List.map_append, List.mem_append]
        rintro (h | h)
        · exact hdisj g (List.mem_cons_of_mem f hg) h
        · rw [List.map_singleton, List.mem_singleton] at h
          have h2 : g.path = f.path := h
          exact hhd (h2 ▸ List.mem_map_of_mem FileStat.path hg)

theorem build_FLInv (records : List FileStat)
    (hnd : (records.map FileStat.path).Nodup) :
    FLInv (FileListOrdered.build records) := by
  have hd : (FileListOrdered.build records).d =
      records.map fun f => (f.path, f) := by
    show records.foldl (fun a (f : FileStat) => dInsert a f.path f) [] = _
    rw [build_d_of_nodup records [] hnd (by simp)]
    simp
  refine ⟨List.sorted_insertionSort fsLe records, ?_, ?_, ?_⟩
  · rw [hd, List.map_map]
    have : (Prod.snd ∘ fun (f : FileStat) => (f.path, f)) = id := rfl
    rw [this, List.map_id]
    exact List.perm_insertionSort fsLe records
  · rw [hd, List.map_map]
    have : (Prod.fst ∘ fun (f : FileStat) => (f.path, f)) = FileStat.path := rfl
    rw [this]
    exact hnd
  · rw [hd]
    intro kv hkv
    obtain ⟨f, _, rfl⟩ := List.mem_map.mp hkv
    rfl

/-- The two mutating inventory operations of the spec:
`insertOrUpdate(record)` is `fl[record.path] = record`, `remove(path)`
is `del fl[path]`. -/
inductive Op where
  | insertOrUpdate (v : FileStat)
  | remove (p : String)
deriving DecidableEq, Repr

/-- A run of inventory operations.  Each `insertOrUpdate` of a path that
is already present must carry a changed creation time (the condition
under which `__setitem__` removes the stale ordered entry), and each
operation must succeed (no `KeyError`). -/
inductive Steps : FileListOrdered → List Op → FileListOrdered → Prop where
  | nil (s : FileListOrdered) : Steps s [] s
  | ins {s s₂ s₃ : FileListOrdered} {v : FileStat} {ops : List Op}
      (hct : ∀ old, dGet s.d v.path = some old →
        old.stat.st_ctime ≠ v.stat.st_ctime)
      (hstep : s.setitem v.path v = some s₂)
      (hrest : Steps s₂ ops s₃) : Steps s (Op.insertOrUpdate v :: ops) s₃
  | rem {s s₂ s₃ : FileListOrdered} {p : String} {ops : List Op}
      (hstep : s.delitem p = some s₂)
      (hrest : Steps s₂ ops s₃) : Steps s (Op.remove p :: ops) s₃

theorem steps_inv {s s' : FileListOrdered} {ops : List Op}
    (hsteps : Steps s ops s') :
    FLInv s → FLInv s' ∧ s'.total_size = s.total_size := by
  induction hsteps with
  | nil s => exact fun hinv => ⟨hinv, rfl⟩
  | ins hct hstep _ ih =>
      intro hinv
      obtain ⟨h2, ht2⟩ := setitem_inv _ _ _ hinv hct hstep
      obtain ⟨h3, ht3⟩ := ih h2
      exact ⟨h3, by rw [ht3, ht2]⟩
  | rem hstep _ ih =>
      intro hinv
      obtain ⟨h2, ht2⟩ := delitem_inv _ _ _ hinv hstep
      obtain ⟨h3, ht3⟩ := ih h2
      exact ⟨h3, by rw [ht3, ht2]⟩

/-- Claim C5 (amended): starting from an inventory built from records
with distinct paths, any succeeding sequence of `insertOrUpdate` /
`remove` calls in which every update of an existing path changes its
creation time preserves sortedness of `order` and the
`entries`-equals-`order` multiset consistency (in particular no path
occurs twice in `order`); `totalSize`, however, is NOT maintained
incrementally by these operations — it stays at its build-time value. -/
theorem ops_preserve_structural_invariants (records : List FileStat)
    (hnd : (records.map FileStat.path).Nodup) (ops : List Op)
    (s' : FileListOrdered)
    (hsteps : Steps (FileListOrdered.build records) ops s') :
    SortedByCtime s'.l ∧ s'.l.Perm (s'.d.map Prod.snd) ∧
    ((s'.d.map Prod.fst).Nodup) ∧ ((s'.l.map FileStat.path).Nodup) ∧
    s'.total_size = (FileListOrdered.build records).total_size := by
  obtain ⟨hinv, htot⟩ := steps_inv hsteps (build_FLInv records hnd)
  exact ⟨hinv.1, hinv.2.1, hinv.2.2.1, hinv.paths_nodup, htot⟩

/-- Concrete records and intermediate inventories used to exercise the
mutation operations. -/
def exA : FileStat := ⟨"a", ⟨5, 1⟩⟩

def exB : FileStat := ⟨"b", ⟨7, 2⟩⟩

def exS1 : FileListOrdered := ⟨[("a", exA), ("b", exB)], [exA, exB], 5⟩

def exS2 : FileListOrdered := ⟨[("b", exB)], [exB], 5⟩

/-- Claim C5 witness: a two-operation run (insert a fresh path, then
remove the original record) on the inventory built from one record. -/
theorem ops_preserve_structural_invariants_witness :
    (([exA].map FileStat.path).Nodup) ∧
    (SortedByCtime exS2.l ∧ exS2.l.Perm (exS2.d.map Prod.snd) ∧
     ((exS2.d.map Prod.fst).Nodup) ∧ ((exS2.l.map FileStat.path).Nodup) ∧
     exS2.total_size = (FileListOrdered.build [exA]).total_size) :=
  ⟨by decide,
   ops_preserve_structural_invariants [exA] (by decide)
     [Op.insertOrUpdate exB, Op.remove "a"] exS2
     (Steps.ins (fun old h => Option.noConfusion h)
       (show (FileListOrdered.build [exA]).setitem exB.path exB = some exS1
         by decide)
       (Steps.rem (show exS1.delitem "a" = some exS2 by decide)
         (Steps.nil exS2)))⟩

/-- Claim C5 counterexample: a single `insertOrUpdate` on the inventory
built from no records yields a state whose `total_size` (still 0) is no
longer the sum of the sizes in `order` (5): `__setitem__` never updates
`total_size`, so the third claimed invariant fails. -/
theorem setitem_total_size_cex :
    Steps (FileListOrdered.build []) [Op.insertOrUpdate exA]
      { d := [("a", exA)], l := [exA], total_size := 0 } ∧
    sumSizes [exA] = 5 ∧ (0 : Int) ≠ 5 := by
  refine ⟨?_, by decide, by decide⟩
  exact Steps.ins (fun old h => Option.noConfusion h)
    (show (FileListOrdered.build []).setitem exA.path exA =
      some { d := [("a", exA)], l := [exA], total_size := 0 } by decide)
    (Steps.nil _)

-- ### The eviction engine and the directory operations

/-- Status of a path on the filesystem at eviction time: deletable,
already gone (`os.remove` raises `OSError` with `errno == ENOENT`), or
undeletable for any other reason (`OSError` with a different errno,
e.g. a permission error). -/
inductive DiskFile where
  | present
  | absent
  | locked
deriving DecidableEq, Repr

/-- The filesystem, as far as `os.remove` can observe it. -/
def Disk : Type := String → DiskFile

/-- Outcome of one `os.remove(st.path)` call. -/
inductive RemoveResult where
  | removed (disk : Disk)
  | enoent
  | oserror

/-- `os.remove`: deleting a present file makes it absent; an absent
file raises `ENOENT`; a locked file raises a non-`ENOENT` `OSError`
and stays put. -/
def osRemove (disk : Disk) (p : String) : RemoveResult :=
  match disk p with
  | DiskFile.present =>
      RemoveResult.removed fun q => if q = p then DiskFile.absent else disk q
  | DiskFile.absent => RemoveResult.enoent
  | DiskFile.locked => RemoveResult.oserror

/-- The locals of the deletion loop of `delete_files_to_max_size`:
`delete_errors`, `bytes_freed`, plus the filesystem as mutated so far. -/
structure DelAcc where
  delete_errors : List FileStat
  bytes_freed : Int
  disk : Disk

/-- The `for i in range(0, idx)` deletion loop: try `os.remove` on each
prefix entry; a success or an `ENOENT` credits the entry's recorded
size to `bytes_freed`, any other `OSError` appends the entry to
`delete_errors` and credits nothing. -/
def deleteLoop : List FileStat → DelAcc → DelAcc
  | [], acc => acc
  | st :: rest, acc =>
      match osRemove acc.disk st.path with
      | RemoveResult.removed disk2 =>
          deleteLoop rest
            { delete_errors := acc.delete_errors
              bytes_freed := acc.bytes_freed + st.stat.st_size
              disk := disk2 }
      | RemoveResult.enoent =>
          deleteLoop rest
            { acc with bytes_freed := acc.bytes_freed + st.stat.st_size }
      | RemoveResult.oserror =>
          deleteLoop rest
            { acc with delete_errors := acc.delete_errors ++ [st] }

/-- The prefix-selection loop
`while self.total_size - s >= max_size: s += self.l[idx].stat.st_size;
idx += 1`, recursing on the unscanned suffix of `self.l`.  `none` is
the `IndexError` raised when `idx` runs past the end of the list with
the loop condition still true. -/
def selectLoop (total : Int) (max_size : ℚ) :
    List FileStat → Nat → Int → Option (Nat × Int)
  | remaining, idx, s =>
      if ((total - s : Int) : ℚ) ≥ max_size then
        match remaining with
        | [] => none
        | st :: rest =>
            selectLoop total max_size rest (idx + 1)
              (s + (st.stat.st_size : Int))
      else some (idx, s)

/-- The observable outcome of one `delete_files_to_max_size` call: the
updated inventory and filesystem, together with the function's local
accounting (`attempted` is the final `idx`, `selectedBytes` the final
`s`, then `bytes_freed` and `delete_errors`) and whether the critical
reclamation-shortfall log (`bytes_freed < s / 2`) fired.  The Python
function itself returns `None`; the locals are exposed here so that
properties can be stated about them. -/
structure EvictResult where
  state : FileListOrdered
  disk : Disk
  attempted : Nat
  selectedBytes : Int
  bytes_freed : Int
  delete_errors : List FileStat
  critical : Bool

/-- `FileListOrdered.delete_files_to_max_size(max_size)`: select the
oldest-first prefix whose removal brings the total strictly under
`max_size`, try to delete each selected file, then subtract the bytes
credited as freed from `self.total_size`.  Neither `self.d` nor
`self.l` is touched. -/
def FileListOrdered.delete_files_to_max_size (s : FileListOrdered)
    (disk : Disk) (max_size : ℚ) : Option EvictResult :=
  match selectLoop s.total_size max_size s.l 0 0 with
  | none => none
  | some (idx, sel) =>
      let out := deleteLoop (s.l.take idx) ⟨[], 0, disk⟩
      some { state := { d := s.d, l := s.l
                        total_size := s.total_size - out.bytes_freed }
             disk := out.disk
             attempted := idx
             selectedBytes := sel
             bytes_freed := out.bytes_freed
             delete_errors := out.delete_errors
             critical := decide ((out.bytes_freed : ℚ) < (sel : ℚ) / 2) }

/-- `Directory.run_cleanup()`: if the inventory total exceeds
`max_bytes`, run `delete_files_to_max_size(max_bytes)` and return
`True`; otherwise return `False`.  The boolean is the entire return
value; the updated inventory and filesystem are side effects. -/
def run_cleanup (fl : FileListOrdered) (disk : Disk) (max_bytes : ℚ) :
    Option (Bool × FileListOrdered × Disk) :=
  if (fl.total_size : ℚ) > max_bytes then
    match fl.delete_files_to_max_size disk max_bytes with
    | none => none
    | some r => some (true, r.state, r.disk)
  else some (false, fl, disk)

/-- `class Directory`: watched path, the two byte thresholds, the time
of the last usage calculation, and the current inventory `self.fl`. -/
structure DirectoryState where
  path : String
  max_bytes : ℚ
  disk_bytes : ℚ
  usage_calculated_at : ℚ
  fl : FileListOrdered
deriving DecidableEq

/-- `Directory.check_disk_usage()`: if at least `SLEEP` seconds passed
since the last calculation, recalculate (`self.fl = get_dir_size(...)`,
`self.usage_calculated_at = time.time()`; `scanned` stands for the
freshly scanned inventory) and return `True` exactly when the new total
exceeds `max_bytes + (disk_bytes - max_bytes) / 2`; otherwise return
`False` and change nothing.  No deletion happens here. -/
def check_disk_usage (dir : DirectoryState) (now sleep : ℚ)
    (scanned : FileListOrdered) : Bool × DirectoryState :=
  if now ≥ dir.usage_calculated_at + sleep then
    if (scanned.total_size : ℚ) >
        dir.max_bytes + (dir.disk_bytes - dir.max_bytes) / 2 then
      (true, { dir with usage_calculated_at := now, fl := scanned })
    else
      (false, { dir with usage_calculated_at := now, fl := scanned })
  else (false, dir)

/-- Outcome of `Directory.__init__`: `exit_error` on the root path, a
`TypeError` listing the unexpected keys, or success carrying the two
popped size values. -/
inductive ConfigOutcome (V : Type) where
  | exitRoot
  | typeErr (leftover : List String)
  | ok (max_size disk_size : V)
deriving DecidableEq

/-- `config.pop(k, dflt)` on a dict: return the value under `k` (or the
default) and the dict without that key. -/
def dictPop {V : Type} (cfg : List (String × V)) (k : String)
    (dflt : V) : V × List (String × V) :=
  match cfg.find? fun kv => kv.1 == k with
  | some kv => (kv.2, cfg.filter fun kv2 => !(kv2.1 == k))
  | none => (dflt, cfg)

/-- `Directory.__init__(path, config)`: refuse the root path
(`exit_error`), pop `max_size` and `disk_size` out of the caller's
config dict (mutating it), and raise `TypeError(config.keys())` if
anything remains.  The subsequent `unit_byte_size_tuple` parsing of the
popped values is not modelled; the values stay abstract. -/
def directoryInit {V : Type} (path : String) (config : List (String × V))
    (dflt_max dflt_disk : V) : ConfigOutcome V × List (String × V) :=
  if path = "/" then (ConfigOutcome.exitRoot, config)
  else
    let p1 := dictPop config "max_size" dflt_max
    let p2 := dictPop p1.2 "disk_size" dflt_disk
    if p2.2.isEmpty then (ConfigOutcome.ok p1.1 p2.1, p2.2)
    else (ConfigOutcome.typeErr (p2.2.map Prod.fst), p2.2)

theorem sumSizes_nil : sumSizes [] = 0 := rfl

theorem sumSizes_cons (f : FileStat) (l : List FileStat) :
    sumSizes (f :: l) = (f.stat.st_size : Int) + sumSizes l := by
  simp [sumSizes]

/-- What the deletion loop computes, in terms of the pre-eviction disk:
as long as the prefix has no duplicate paths (so one entry's removal
cannot change what another entry's `os.remove` sees), the bytes freed
are the sizes of all non-locked entries and the failure list is exactly
the locked entries, in order. -/
theorem deleteLoop_spec (disk0 : Disk) :
    ∀ (fs : List FileStat) (acc : DelAcc),
    (∀ f ∈ fs, acc.disk f.path = disk0 f.path) →
    ((fs.map FileStat.path).Nodup) →
    (deleteLoop fs acc).bytes_freed = acc.bytes_freed +
      sumSizes (fs.filter fun f => !(disk0 f.path == DiskFile.locked)) ∧
    (deleteLoop fs acc).delete_errors = acc.delete_errors ++
      fs.filter fun f => disk0 f.path == DiskFile.locked := by
  intro fs
  induction fs with
  | nil => intro acc _ _; simp [deleteLoop, sumSizes_nil]
  | cons st rest ih =>
      intro acc hdisk hnd
      have hnd2 : (st.path :: rest.map FileStat.path).Nodup := by
        simpa only [List.map_cons] using hnd
      obtain ⟨hhd, htl⟩ := List.nodup_cons.mp hnd2
      have hst : acc.disk st.path = disk0 st.path := hdisk st (by simp)
      have hrest : ∀ f ∈ rest, f.path ≠ st.path := by
        intro f hf hcontra
        exact hhd (hcontra ▸ List.mem_map_of_mem FileStat.path hf)
      cases h0 : disk0 st.path with
      | present =>
          have hrem : osRemove acc.disk st.path =
              RemoveResult.removed
                (fun q => if q = st.path then DiskFile.absent
                  else acc.disk q) := by
            rw [osRemove, hst, h0]
          rw [deleteLoop, hrem]
          obtain ⟨hb, he⟩ := ih
            { delete_errors := acc.delete_errors
              bytes_freed := acc.bytes_freed + st.stat.st_size
              disk := fun q => if q = st.path then DiskFile.absent
                else acc.disk q }
            (by
              intro f hf
              show (if f.path = st.path then DiskFile.absent
                else acc.disk f.path) = disk0 f.path
              rw [if_neg (hrest f hf)]
              exact hdisk f (List.mem_cons_of_mem st hf))
            htl
          constructor
          · rw [hb]
            have hfil : (st :: rest).filter
                (fun f => !(disk0 f.path == DiskFile.locked)) =
                st :: rest.filter
                  (fun f => !(disk0 f.path == DiskFile.locked)) := by
              rw [List.filter_cons_of_pos (by simp [h0])]
            rw [hfil, sumSizes_cons]
            push_cast
            omega
          · rw [he]
            rw [List.filter_cons_of_neg (by simp [h0])]
      | absent =>
          have hrem : osRemove acc.disk st.path = RemoveResult.enoent := by
            rw [osRemove, hst, h0]
          rw [deleteLoop, hrem]
          obtain ⟨hb, he⟩ := ih
            { acc with bytes_freed := acc.bytes_freed + st.stat.st_size }
            (fun f hf => hdisk f (List.mem_cons_of_mem st hf))
            htl
          constructor
          · rw [hb]
            rw [List.filter_cons_of_pos (by simp [h0]), sumSizes_cons]
            push_cast
            omega
          · rw [he]
            rw [List.filter_cons_of_neg (by simp [h0])]
      | locked =>
          have hrem : osRemove acc.disk st.path = RemoveResult.oserror := by
            rw [osRemove, hst, h0]
          rw [deleteLoop, hrem]
          obtain ⟨hb, he⟩ := ih
            { acc with delete_errors := acc.delete_errors ++ [st] }
            (fun f hf => hdisk f (List.mem_cons_of_mem st hf))
            htl
          constructor
          · rw [hb]
            rw [List.filter_cons_of_neg (by simp [h0])]
          · rw [he]
            rw [List.filter_cons_of_pos (by simp [h0])]
            simp

/-- Claim C1 (amended): after `delete_files_to_max_size`, the selected
prefix entries are NOT removed from the path map or the ordered
sequence — `entries` and `order` are left exactly as they were (the
inventory is only refreshed by the next full rescan) — while
`totalSize` is reduced by exactly the bytes credited as freed (the
recorded sizes of the prefix entries whose deletion succeeded or found
the file already gone), not by recounting. -/
theorem evict_updates_total_only (s : FileListOrdered) (disk : Disk)
    (q : ℚ) (idx : Nat) (sel : Int)
    (hsel : selectLoop s.total_size q s.l 0 0 = some (idx, sel))
    (hnd : ((s.l.take idx).map FileStat.path).Nodup) :
    (s.delete_files_to_max_size disk q).map
      (fun r => (r.state.d, r.state.l, r.state.total_size,
        r.attempted, r.bytes_freed, r.delete_errors)) =
      some (s.d, s.l,
        s.total_size - sumSizes ((s.l.take idx).filter
          fun f => !(disk f.path == DiskFile.locked)),
        idx,
        sumSizes ((s.l.take idx).filter
          fun f => !(disk f.path == DiskFile.locked)),
        (s.l.take idx).filter fun f => disk f.path == DiskFile.locked) := by
  obtain ⟨hb, he⟩ :=
    deleteLoop_spec disk (s.l.take idx) ⟨[], 0, disk⟩ (fun f _ => rfl) hnd
  rw [FileListOrdered.delete_files_to_max_size, hsel]
  simp only [Option.map_some']
  rw [hb, he]
  simp

/-- Claim C1 counterexample: a one-record inventory evicted down to
3 bytes with a successful deletion: the one selected entry is still in
both `entries` and `order` afterwards (only `total_size` changed), so
the claimed removal from both structures does not happen. -/
theorem evict_leaves_entries_cex :
    ((FileListOrdered.build [exA]).delete_files_to_max_size
      (fun _ => DiskFile.present) 3).map
      (fun r => (r.attempted, r.state.d, r.state.l, r.bytes_freed,
        r.state.total_size)) =
      some (1, [("a", exA)], [exA], 5, 0) := by decide

/-- Claim C1 witness: the amended statement applied to the same
one-record inventory. -/
theorem evict_updates_total_only_witness :
    selectLoop (FileListOrdered.build [exA]).total_size 3
      (FileListOrdered.build [exA]).l 0 0 = some (1, 5) ∧
    ((((FileListOrdered.build [exA]).l.take 1).map FileStat.path).Nodup) ∧
    ((FileListOrdered.build [exA]).delete_files_to_max_size
      (fun _ => DiskFile.present) 3).map
      (fun r => (r.state.d, r.state.l, r.state.total_size,
        r.attempted, r.bytes_freed, r.delete_errors)) =
      some ((FileListOrdered.build [exA]).d, (FileListOrdered.build [exA]).l,
        (FileListOrdered.build [exA]).total_size -
          sumSizes (((FileListOrdered.build [exA]).l.take 1).filter
            fun f => !((fun _ => DiskFile.present) f.path == DiskFile.locked)),
        1,
        sumSizes (((FileListOrdered.build [exA]).l.take 1).filter
          fun f => !((fun _ => DiskFile.present) f.path == DiskFile.locked)),
        ((FileListOrdered.build [exA]).l.take 1).filter
          fun f => (fun _ => DiskFile.present) f.path == DiskFile.locked) :=
  ⟨by decide, by decide,
   evict_updates_total_only (FileListOrdered.build [exA])
     (fun _ => DiskFile.present) 3 1 5 (by decide) (by decide)⟩

/-- Claim C2 (amended): when `totalSize` is strictly below the target,
eviction is a no-op: the selection loop stops at once, nothing is
attempted, zero bytes are freed, no failures are reported, and the
inventory, the filesystem, and even the critical flag are untouched.
At `totalSize == target` the `>=` loop condition does select entries,
so "at most target" had to become "strictly below target". -/
theorem evict_below_target_noop (s : FileListOrdered) (disk : Disk)
    (q : ℚ) (h : (s.total_size : ℚ) < q) :
    s.delete_files_to_max_size disk q =
      some { state := s, disk := disk, attempted := 0, selectedBytes := 0,
             bytes_freed := 0, delete_errors := [], critical := false } := by
  have hc : ¬ (((s.total_size - 0 : Int) : ℚ) ≥ q) := by
    rw [sub_zero]
    exact not_le.mpr h
  have hc2 : ¬ q ≤ (s.total_size : ℚ) := not_le.mpr h
  have hsel0 : selectLoop s.total_size q s.l 0 0 = some (0, 0) := by
    rw [selectLoop.eq_def]
    simp [hc2]
  rw [FileListOrdered.delete_files_to_max_size, hsel0]
  simp [deleteLoop]

/-- Claim C2 witness: a 5-byte inventory with target 6. -/
theorem evict_below_target_noop_witness :
    (((FileListOrdered.build [exA]).total_size : ℚ) < 6) ∧
    (FileListOrdered.build [exA]).delete_files_to_max_size
      (fun _ => DiskFile.present) 6 =
      some { state := FileListOrdered.build [exA]
             disk := fun _ => DiskFile.present
             attempted := 0, selectedBytes := 0, bytes_freed := 0
             delete_errors := [], critical := false } :=
  ⟨by decide,
   evict_below_target_noop (FileListOrdered.build [exA])
     (fun _ => DiskFile.present) 6 (by decide)⟩

/-- Claim C2 counterexample: a 5-byte inventory with target exactly 5
(`totalSize ≤ target` holds) is NOT a no-op: the `>=` loop condition
selects the one entry, deletes it, frees 5 bytes and drops
`total_size` to 0. -/
theorem evict_at_target_not_noop_cex :
    (((FileListOrdered.build [exA]).total_size : ℚ) ≤ 5) ∧
    ((FileListOrdered.build [exA]).delete_files_to_max_size
      (fun _ => DiskFile.present) 5).map
      (fun r => (r.attempted, r.bytes_freed, r.state.total_size)) =
      some (1, 5, 0) :=
  ⟨by decide, by decide⟩

/-- Claim C3: with `targetBytes = 0` the selection loop's condition
`total_size - s >= max_size` is still true after every entry has been
scanned, so `self.l[idx]` is evaluated with `idx = len(self.l)` and
raises `IndexError` (embedded as `none`); nothing is evicted.  Shown on
the empty inventory and on a one-record inventory. -/
theorem evict_target_zero_index_error :
    (FileListOrdered.build []).delete_files_to_max_size
      (fun _ => DiskFile.present) 0 = none ∧
    (FileListOrdered.build [exA]).delete_files_to_max_size
      (fun _ => DiskFile.present) 0 = none :=
  ⟨rfl, rfl⟩

/-- Claim C6 (confirmed): over the selected prefix (no duplicate
paths), an entry whose file is already absent (`ENOENT`) still has its
recorded size credited to `bytes_freed` and is not put in the failure
list; an entry whose deletion fails for any other reason contributes
nothing to `bytes_freed` and is recorded as a failure. -/
theorem evict_enoent_outcomes (s : FileListOrdered) (disk : Disk)
    (q : ℚ) (idx : Nat) (sel : Int)
    (hsel : selectLoop s.total_size q s.l 0 0 = some (idx, sel))
    (hnd : ((s.l.take idx).map FileStat.path).Nodup) :
    ((s.delete_files_to_max_size disk q).map
      (fun r => (r.bytes_freed, r.delete_errors)) =
      some (sumSizes ((s.l.take idx).filter
          fun f => !(disk f.path == DiskFile.locked)),
        (s.l.take idx).filter fun f => disk f.path == DiskFile.locked)) ∧
    (∀ f ∈ s.l.take idx, disk f.path = DiskFile.absent →
      f ∉ (s.l.take idx).filter fun f2 => disk f2.path == DiskFile.locked) ∧
    (∀ f ∈ s.l.take idx, disk f.path = DiskFile.locked →
      f ∈ (s.l.take idx).filter fun f2 => disk f2.path == DiskFile.locked) := by
  obtain ⟨hb, he⟩ :=
    deleteLoop_spec disk (s.l.take idx) ⟨[], 0, disk⟩ (fun f _ => rfl) hnd
  refine ⟨?_, ?_, ?_⟩
  · rw [FileListOrdered.delete_files_to_max_size, hsel]
    simp only [Option.map_some']
    rw [hb, he]
    simp
  · intro f hf habs hmem
    have := (List.mem_filter.mp hmem).2
    rw [habs] at this
    exact absurd this (by decide)
  · intro f hf hlock
    exact List.mem_filter.mpr ⟨hf, by simp [hlock]⟩

/-- Claim C6 witness: one-record inventory whose file is already gone
(`ENOENT`): 5 bytes are still credited, the failure list is empty. -/
theorem evict_enoent_outcomes_witness :
    selectLoop (FileListOrdered.build [exA]).total_size 3
      (FileListOrdered.build [exA]).l 0 0 = some (1, 5) ∧
    ((((FileListOrdered.build [exA]).l.take 1).map FileStat.path).Nodup) ∧
    (((FileListOrdered.build [exA]).delete_files_to_max_size
      (fun _ => DiskFile.absent) 3).map
      (fun r => (r.bytes_freed, r.delete_errors)) =
      some (sumSizes (((FileListOrdered.build [exA]).l.take 1).filter
          fun f => !((fun _ => DiskFile.absent) f.path == DiskFile.locked)),
        ((FileListOrdered.build [exA]).l.take 1).filter
          fun f => (fun _ => DiskFile.absent) f.path == DiskFile.locked)) ∧
    (∀ f ∈ (FileListOrdered.build [exA]).l.take 1,
      (fun _ => DiskFile.absent) f.path = DiskFile.absent →
      f ∉ ((FileListOrdered.build [exA]).l.take 1).filter
        fun f2 => (fun _ => DiskFile.absent) f2.path == DiskFile.locked) ∧
    (∀ f ∈ (FileListOrdered.build [exA]).l.take 1,
      (fun _ => DiskFile.absent) f.path = DiskFile.locked →
      f ∈ ((FileListOrdered.build [exA]).l.take 1).filter
        fun f2 => (fun _ => DiskFile.absent) f2.path == DiskFile.locked) :=
  ⟨by decide, by decide,
   (evict_enoent_outcomes (FileListOrdered.build [exA])
     (fun _ => DiskFile.absent) 3 1 5 (by decide) (by decide)).1,
   (evict_enoent_outcomes (FileListOrdered.build [exA])
     (fun _ => DiskFile.absent) 3 1 5 (by decide) (by decide)).2.1,
   (evict_enoent_outcomes (FileListOrdered.build [exA])
     (fun _ => DiskFile.absent) 3 1 5 (by decide) (by decide)).2.2⟩

/-- The five-file scenario of the spec: sizes 1024, 1025, 1028, 1033,
1040 bytes with strictly increasing creation times. -/
def fv1 : FileStat := ⟨"p1", ⟨1024, 1⟩⟩

def fv2 : FileStat := ⟨"p2", ⟨1025, 2⟩⟩

def fv3 : FileStat := ⟨"p3", ⟨1028, 3⟩⟩

def fv4 : FileStat := ⟨"p4", ⟨1033, 4⟩⟩

def fv5 : FileStat := ⟨"p5", ⟨1040, 5⟩⟩

def fiveInv : FileListOrdered :=
  FileListOrdered.build [fv1, fv2, fv3, fv4, fv5]

/-- Claim C7 (confirmed): on the five-file inventory (total 5150
bytes), eviction to 3000 bytes with every deletion succeeding attempts
exactly the three oldest files, removes exactly those three from the
filesystem, credits 1024 + 1025 + 1028 = 3077 bytes as freed, reports
no failures, and leaves `total_size = 2073 ≤ 3000`. -/
theorem evict_five_files_scenario :
    fiveInv.total_size = 5150 ∧
    (fiveInv.delete_files_to_max_size (fun _ => DiskFile.present) 3000).map
      (fun r => (r.attempted, (fiveInv.l.take r.attempted).map FileStat.path,
        r.bytes_freed, r.state.total_size, r.delete_errors)) =
      some (3, ["p1", "p2", "p3"], 3077, 2073, []) ∧
    (fiveInv.delete_files_to_max_size (fun _ => DiskFile.present) 3000).map
      (fun r => (r.disk "p1", r.disk "p2", r.disk "p3", r.disk "p4",
        r.disk "p5")) =
      some (DiskFile.absent, DiskFile.absent, DiskFile.absent,
        DiskFile.present, DiskFile.present) ∧
    ((2073 : ℚ) ≤ 3000) :=
  ⟨by decide, by decide, by decide, by decide⟩

/-- Claim C4 (amended): `delete_files_to_max_size` computes the
attempted count, the bytes freed and the failure list only in local
variables and returns `None`; `run_cleanup` returns just a boolean —
`False` (inventory and filesystem untouched) when the total is within
`max_bytes`, and `True` (with the eviction side effects applied) when a
deletion pass ran.  No report object is returned to the caller. -/
theorem run_cleanup_returns_bool (fl : FileListOrdered) (disk : Disk)
    (q : ℚ) :
    ((fl.total_size : ℚ) ≤ q →
      run_cleanup fl disk q = some (false, fl, disk)) ∧
    ((fl.total_size : ℚ) > q →
      run_cleanup fl disk q =
        (fl.delete_files_to_max_size disk q).map
          fun r => (true, r.state, r.disk)) := by
  constructor
  · intro hle
    rw [run_cleanup, if_neg (not_lt.mpr hle)]
  · intro hgt
    rw [run_cleanup, if_pos hgt]
    cases hev : fl.delete_files_to_max_size disk q with
    | none => simp
    | some r => simp

/-- Claim C4 witness: a 5-byte inventory cleaned to 3 bytes. -/
theorem run_cleanup_returns_bool_witness :
    (((FileListOrdered.build [exA]).total_size : ℚ) > 3) ∧
    run_cleanup (FileListOrdered.build [exA]) (fun _ => DiskFile.present) 3 =
      ((FileListOrdered.build [exA]).delete_files_to_max_size
        (fun _ => DiskFile.present) 3).map fun r => (true, r.state, r.disk) :=
  ⟨by decide,
   (run_cleanup_returns_bool (FileListOrdered.build [exA])
     (fun _ => DiskFile.present) 3).2 (by decide)⟩

/-- Claim C4 counterexample: two cleanup runs whose internal eviction
reports differ completely (5 bytes freed with no failures versus 0
bytes freed with one failure) return the identical value `True` — the
returned boolean cannot be carrying any report. -/
theorem run_cleanup_no_report_cex :
    ((run_cleanup (FileListOrdered.build [exA])
      (fun _ => DiskFile.present) 3).map fun t => t.1) = some true ∧
    ((run_cleanup (FileListOrdered.build [exB])
      (fun _ => DiskFile.locked) 3).map fun t => t.1) = some true ∧
    (((FileListOrdered.build [exA]).delete_files_to_max_size
      (fun _ => DiskFile.present) 3).map
      fun r => (r.bytes_freed, r.delete_errors)) = some (5, []) ∧
    (((FileListOrdered.build [exB]).delete_files_to_max_size
      (fun _ => DiskFile.locked) 3).map
      fun r => (r.bytes_freed, r.delete_errors)) = some (0, [exB]) :=
  ⟨by decide, by decide, by decide, by decide⟩

/-- Claim C8 (amended): `check_disk_usage` returns `True` iff the
rescan interval has elapsed AND the freshly rescanned inventory's total
strictly exceeds `max_bytes + (disk_bytes - max_bytes) / 2`; when the
interval has elapsed it replaces the current inventory snapshot with
the fresh scan (otherwise it changes nothing), and it never deletes
anything or alters the configured thresholds. -/
theorem check_disk_usage_characterization (dir : DirectoryState)
    (now sleep : ℚ) (scanned : FileListOrdered) :
    ((check_disk_usage dir now sleep scanned).1 = true ↔
      (now ≥ dir.usage_calculated_at + sleep ∧
       (scanned.total_size : ℚ) >
         dir.max_bytes + (dir.disk_bytes - dir.max_bytes) / 2)) ∧
    (check_disk_usage dir now sleep scanned).2.fl =
      (if now ≥ dir.usage_calculated_at + sleep then scanned else dir.fl) ∧
    (check_disk_usage dir now sleep scanned).2.max_bytes =
      dir.max_bytes ∧
    (check_disk_usage dir now sleep scanned).2.disk_bytes =
      dir.disk_bytes ∧
    (check_disk_usage dir now sleep scanned).2.path = dir.path ∧
    (check_disk_usage dir now sleep scanned).2.usage_calculated_at =
      (if now ≥ dir.usage_calculated_at + sleep then now
       else dir.usage_calculated_at) := by
  by_cases h1 : now ≥ dir.usage_calculated_at + sleep
  · by_cases h2 : (scanned.total_size : ℚ) >
        dir.max_bytes + (dir.disk_bytes - dir.max_bytes) / 2
    · simp [check_disk_usage, h1, h2]
    · simp [check_disk_usage, h1, h2]
  · simp [check_disk_usage, h1]

/-- A large record, its one-entry inventory, and a watched directory
used to exercise the growth alarm. -/
def exBig : FileStat := ⟨"big", ⟨1000, 1⟩⟩

def exFl : FileListOrdered := ⟨[("big", exBig)], [exBig], 1000⟩

def exDir : DirectoryState := ⟨"/data", 100, 200, 1000, exFl⟩

/-- Claim C8 counterexample: the inventory total (1000) strictly
exceeds the midpoint `100 + (200 - 100) / 2 = 150`, yet the check fires
no alarm because the rescan interval has not elapsed
(`now = 1500 < 1000 + 1800`) — the claimed "fires iff total exceeds
the midpoint" is time-gated in the code. -/
theorem growth_alarm_time_gated_cex :
    check_disk_usage exDir 1500 1800 exFl = (false, exDir) ∧
    ((exDir.fl.total_size : ℚ) >
      exDir.max_bytes + (exDir.disk_bytes - exDir.max_bytes) / 2) := by
  constructor
  · rw [check_disk_usage, if_neg (by norm_num [exDir])]
  · norm_num [exDir, exFl]

theorem dictPop_snd {V : Type} (cfg : List (String × V)) (k : String)
    (dflt : V) :
    (dictPop cfg k dflt).2 = cfg.filter fun kv => !(kv.1 == k) := by
  rw [dictPop]
  cases hf : cfg.find? (fun kv => kv.1 == k) with
  | some kv => rfl
  | none =>
      have hnone := List.find?_eq_none.mp hf
      have hself : cfg.filter (fun kv => !(kv.1 == k)) = cfg :=
        List.filter_eq_self.mpr fun kv hkv => by
          have h2 := hnone kv hkv
          simp only [Bool.not_eq_true] at h2
          simp [h2]
      exact hself.symm

/-- Claim C9 (confirmed): for a non-root path, constructing a
`Directory` mutates the caller's config dict — on return the
`max_size` and `disk_size` keys have been popped out (everything else
is untouched, in order) — and a `TypeError` is raised exactly when some
other key remains after those two pops. -/
theorem directory_init_pops_keys {V : Type} (path : String)
    (config : List (String × V)) (dflt_max dflt_disk : V)
    (hpath : path ≠ "/") :
    (directoryInit path config dflt_max dflt_disk).2 =
      config.filter
        (fun kv => !(kv.1 == "disk_size") && !(kv.1 == "max_size")) ∧
    (∀ kv ∈ (directoryInit path config dflt_max dflt_disk).2,
      kv.1 ≠ "max_size" ∧ kv.1 ≠ "disk_size") ∧
    ((∃ ks, (directoryInit path config dflt_max dflt_disk).1 =
        ConfigOutcome.typeErr ks) ↔
      (directoryInit path config dflt_max dflt_disk).2 ≠ []) := by
  have hc2 : (dictPop (dictPop config "max_size" dflt_max).2 "disk_size"
      dflt_disk).2 =
      config.filter
        (fun kv => !(kv.1 == "disk_size") && !(kv.1 == "max_size")) := by
    rw [dictPop_snd, dictPop_snd, List.filter_filter]
  have hsnd : (directoryInit path config dflt_max dflt_disk).2 =
      (dictPop (dictPop config "max_size" dflt_max).2 "disk_size"
        dflt_disk).2 := by
    rw [directoryInit, if_neg hpath]
    by_cases he : (dictPop (dictPop config "max_size" dflt_max).2
        "disk_size" dflt_disk).2.isEmpty = true
    · rw [if_pos he]
    · rw [if_neg he]
  refine ⟨hsnd.trans hc2, ?_, ?_⟩
  · intro kv hkv
    rw [hsnd, hc2] at hkv
    have h2 := (List.mem_filter.mp hkv).2
    simp only [Bool.and_eq_true, Bool.not_eq_true', beq_eq_false_iff_ne]
      at h2
    exact ⟨h2.2, h2.1⟩
  · rw [directoryInit, if_neg hpath]
    by_cases he : (dictPop (dictPop config "max_size" dflt_max).2
        "disk_size" dflt_disk).2.isEmpty = true
    · rw [if_pos he]
      constructor
      · rintro ⟨ks, hks⟩
        exact absurd hks (by simp)
      · intro hne
        exact absurd (List.isEmpty_iff.mp he) hne
    · rw [if_neg he]
      constructor
      · intro _
        intro hnil
        rw [hnil] at he
        exact he rfl
      · intro _
        exact ⟨_, rfl⟩

/-- Claim C9 witness: a config with one extra key `foo` — both size
keys are popped, `foo` remains, and the `TypeError` fires. -/
theorem directory_init_pops_keys_witness :
    ("/data" ≠ "/") ∧
    ((directoryInit "/data" [("max_size", (1 : Int)), ("foo", 2)] 0 0).2 =
      [("max_size", (1 : Int)), ("foo", 2)].filter
        (fun kv => !(kv.1 == "disk_size") && !(kv.1 == "max_size")) ∧
    (∀ kv ∈ (directoryInit "/data"
        [("max_size", (1 : Int)), ("foo", 2)] 0 0).2,
      kv.1 ≠ "max_size" ∧ kv.1 ≠ "disk_size") ∧
    ((∃ ks, (directoryInit "/data"
        [("max_size", (1 : Int)), ("foo", 2)] 0 0).1 =
        ConfigOutcome.typeErr ks) ↔
      (directoryInit "/data" [("max_size", (1 : Int)), ("foo", 2)] 0 0).2 ≠
        [])) :=
  ⟨by decide,
   directory_init_pops_keys "/data" [("max_size", (1 : Int)), ("foo", 2)]
     0 0 (by decide)⟩
